import Mathlib

/-!
Shallow embedding of `src/sage/graphs/bliss.pyx` (the Sage interface to the
bliss graph canonicalization / automorphism library).

The Cython module builds bliss graph objects from edge lists (expanding edge
labels into binary "bit layers"), asks the external bliss engine for a
canonical permutation or for automorphism generators, and assembles the
results back into edge lists / cycle notation.

The external bliss engine itself is not part of the repository; wherever its
output (the canonical permutation `aut`) is consumed, it is passed in here as
an explicit function parameter `aut : Nat → Nat`, and the properties the spec
ascribes to the engine are taken as hypotheses (modelled from the spec,
section 4.2).

Machine integers: `LONG_MAX` / `UINT_MAX` are the 64-bit signed / 32-bit
unsigned bounds of the C types used in the source; the C cast
`<unsigned long>(v)` of an `int` is modelled by `ulongOfInt`.
-/

namespace BlissPyx

/-- Value of `LONG_MAX` from `libc.limits` on the 64-bit platform the module targets. -/
def LONG_MAX : Nat := 2 ^ 63 - 1

/-- Largest value of the engine's vertex-index type (`unsigned int`, 32 bits):
`Graph(const unsigned int)` in the extern declaration. -/
def UINT_MAX : Nat := 2 ^ 32 - 1

/-- The C cast `<unsigned long>(v)` applied to a signed value `v`. -/
def ulongOfInt (v : Int) : Nat := (v % (2 ^ 64 : Int)).toNat

/-- Binary digits of `n`, most significant first, by structural recursion on
a fuel argument (`bitsAux n n` computes them exactly; see `bitsAux_eq`). -/
def bitsAux : Nat → Nat → List Nat
  | 0, _ => []
  | fuel + 1, n => if n = 0 then [] else bitsAux fuel (n / 2) ++ [n % 2]

/-- Model of `numpy.binary_repr(n)`: the binary representation of `n ≥ 0` as a list of
bits, most significant first; `binary_repr(0) = "0"`. -/
def binaryRepr (n : Nat) : List Nat :=
  if n = 0 then [0] else bitsAux n n

/-- Model of `numpy.binary_repr(n, width)`: as `binaryRepr`, zero-padded on the left to
`width` characters (no truncation when the representation is longer). -/
def binaryReprW (n width : Nat) : List Nat :=
  List.replicate (width - (binaryRepr n).length) 0 ++ binaryRepr n

/-- Computation `logLnr = len(numpy.binary_repr(Lnr))`: the number of bit layers used for
label expansion. -/
def logLnrOf (Lnr : Nat) : Nat := (binaryRepr Lnr).length

/-- A bliss graph object as the Cython module constructs it: the vertex count
passed to the constructor, the `add_edge` calls in order, and the
`change_color` calls in order.  (Directed and undirected graphs get distinct
C++ classes but are built through the same three operations.) -/
structure BlissGraph where
  nv : Nat
  edges : List (Nat × Nat)
  colors : List (Nat × Nat)
  deriving DecidableEq

/-- The layer-chaining edges `(j-1)*Vnr+i — j*Vnr+i` for `0 ≤ i < Vnr`,
`1 ≤ j < logLnr`, in the order the two nested `for` loops add them. -/
def chainEdges (Vnr logLnr : Nat) : List (Nat × Nat) :=
  (List.range Vnr).flatMap fun i =>
    (List.range' 1 (logLnr - 1)).map fun j => ((j - 1) * Vnr + i, j * Vnr + i)

/-- The per-edge `add_edge` calls of `bliss_graph_from_labelled_edges` for one
input edge `(x, y, lab)`: for `lab ≠ 0` the bits of
`binary_repr(lab + 1, logLnr)` select the layers, otherwise the base edge. -/
def graphLabelEdges (Vnr logLnr x y lab : Nat) : List (Nat × Nat) :=
  if lab ≠ 0 then
    (List.range logLnr).filterMap fun j =>
      if (binaryReprW (lab + 1) logLnr).getD j 0 = 1 then
        some ((logLnr - 1 - j) * Vnr + x, (logLnr - 1 - j) * Vnr + y)
      else none
  else [(x, y)]

/-- The per-edge `add_edge` calls of `bliss_digraph_from_labelled_edges` for
one input edge.  The digraph builder calls `numpy.binary_repr(lab)` WITHOUT
the `logLnr` width argument, then indexes `binrep[j]` for `0 ≤ j < logLnr`:
when the unpadded representation is shorter than `logLnr` this raises
`IndexError` (modelled as `Except.error`). -/
def digraphLabelEdges (Vnr logLnr x y lab : Nat) :
    Except String (List (Nat × Nat)) :=
  if lab ≠ 0 then
    (List.range logLnr).foldlM (fun acc j =>
      match (binaryRepr (lab + 1)).get? j with
      | none => Except.error "IndexError"
      | some b =>
          Except.ok (if b = 1 then
            acc ++ [((logLnr - 1 - j) * Vnr + x, (logLnr - 1 - j) * Vnr + y)]
          else acc)) []
  else Except.ok [(x, y)]

/-- Default `if not bool(partition): partition = [list(range(Vnr))]` — an absent or
empty partition defaults to a single class of the original vertices. -/
def defaultPartition (partition : Option (List (List Nat))) (Vnr : Nat) :
    List (List Nat) :=
  match partition with
  | none => [List.range Vnr]
  | some [] => [List.range Vnr]
  | some p => p

/-- The `change_color` calls of both labelled-edge builders: class `i` of the
(defaulted) partition colors `v` with `i` when `Lnr = 1`, and colors every
layer copy `j*Vnr+v` with `j*Pnr+i` otherwise. -/
def colorOps (Lnr logLnr Vnr : Nat) (part : List (List Nat)) :
    List (Nat × Nat) :=
  let Pnr := part.length
  part.enum.flatMap fun ic =>
    ic.2.flatMap fun v =>
      if Lnr = 1 then [(v, ic.1)]
      else (List.range logLnr).map fun j => (j * Vnr + v, j * Pnr + ic.1)

/-- Model of `bliss_graph_from_labelled_edges(Vnr, Lnr, Vout, Vin, labels, partition)`:
the undirected builder.  `Vout`/`Vin` are endpoint lists, `labels` the edge
label indices (read only when `Lnr ≠ 1`). -/
def bliss_graph_from_labelled_edges (Vnr Lnr : Nat) (Vout Vin labels : List Nat)
    (partition : Option (List (List Nat))) : BlissGraph :=
  let logLnr := logLnrOf Lnr
  let nv := if Lnr = 1 then Vnr else Vnr * logLnr
  let chains := if Lnr = 1 then [] else chainEdges Vnr logLnr
  let labEdges := (List.range Vout.length).flatMap fun i =>
    let x := Vout.getD i 0
    let y := Vin.getD i 0
    let lab := if Lnr = 1 then 0 else labels.getD i 0
    graphLabelEdges Vnr logLnr x y lab
  { nv := nv
    edges := chains ++ labEdges
    colors := colorOps Lnr logLnr Vnr (defaultPartition partition Vnr) }

/-- The edge loop of `bliss_digraph_from_labelled_edges`: accumulates the
per-edge `add_edge` calls over the edge indices, propagating the
`IndexError` of `digraphLabelEdges`. -/
def digraphEdgesLoop (Vnr logLnr Lnr : Nat) (Vout Vin labels : List Nat) :
    List Nat → List (Nat × Nat) → Except String (List (Nat × Nat))
  | [], acc => Except.ok acc
  | i :: is, acc => do
    let x := Vout.getD i 0
    let y := Vin.getD i 0
    let lab := if Lnr = 1 then 0 else labels.getD i 0
    let es ← digraphLabelEdges Vnr logLnr x y lab
    digraphEdgesLoop Vnr logLnr Lnr Vout Vin labels is (acc ++ es)

/-- Model of `bliss_digraph_from_labelled_edges(...)`: the directed builder.  It is the
same construction except that its bit loop can raise `IndexError` (see
`digraphLabelEdges`), which aborts the construction. -/
def bliss_digraph_from_labelled_edges (Vnr Lnr : Nat)
    (Vout Vin labels : List Nat) (partition : Option (List (List Nat))) :
    Except String BlissGraph :=
  let logLnr := logLnrOf Lnr
  let nv := if Lnr = 1 then Vnr else Vnr * logLnr
  let chains := if Lnr = 1 then [] else chainEdges Vnr logLnr
  do
    let labEdges ← digraphEdgesLoop Vnr logLnr Lnr Vout Vin labels
      (List.range Vout.length) []
    pure { nv := nv
           edges := chains ++ labEdges
           colors := colorOps Lnr logLnr Vnr (defaultPartition partition Vnr) }

/-- An output edge of the canonicalization entry points: the two canonical
endpoints and the attached label (`none` models the Python `None`). -/
abbrev OutEdge := Nat × Nat × Option Nat

/-- The `new_edges` loop of `canonical_form_from_edge_list`: endpoint `i` of
each input edge is mapped through the canonical permutation `aut`; with a
single label class the (one) label is `labels[0]` — or `None` when `labels`
is empty — and otherwise it is `labels[i]`; undirected pairs are emitted
larger-endpoint-first. -/
def cffelNewEdges (aut : Nat → Nat) (Vout Vin : List Nat) (Lnr : Nat)
    (labels : List Nat) (directed : Bool) : List OutEdge :=
  (List.range Vout.length).map fun i =>
    let e := aut (Vout.getD i 0)
    let f := aut (Vin.getD i 0)
    let lab : Option Nat :=
      if Lnr = 1 then labels.head? else some (labels.getD i 0)
    if directed then (e, f, lab)
    else if e > f then (e, f, lab) else (f, e, lab)

/-- The certificate dictionary `{v: aut[v] for v in range(Vnr)}`. -/
def cffelRelabel (aut : Nat → Nat) (Vnr : Nat) : List (Nat × Nat) :=
  (List.range Vnr).map fun v => (v, aut v)

/-- Model of `canonical_form_from_edge_list(Vnr, Vout, Vin, Lnr, labels, partition,
directed, certificate)`.  The canonical permutation `aut` that the external
bliss engine returns for the constructed graph is passed in as a parameter
(the engine is outside the repository).  The result records the constructed
bliss graph (for observability of the construction), the unsorted list
`new_edges`, and the `relabel` certificate dictionary as an association list;
the `certificate` flag of the source only selects which of these the caller
receives. -/
def canonical_form_from_edge_list (aut : Nat → Nat) (Vnr : Int)
    (Vout Vin : List Nat) (Lnr : Nat) (labels : List Nat)
    (partition : Option (List (List Nat))) (directed : Bool) :
    Except String (BlissGraph × List OutEdge × List (Nat × Nat)) :=
  if ¬ (ulongOfInt Vnr ≤ LONG_MAX) then Except.error "AssertionError"
  else do
    let g ← if directed then
        bliss_digraph_from_labelled_edges Vnr.toNat Lnr Vout Vin labels partition
      else
        Except.ok (bliss_graph_from_labelled_edges Vnr.toNat Lnr Vout Vin labels partition)
    pure (g, cffelNewEdges aut Vout Vin Lnr labels directed, cffelRelabel aut Vnr.toNat)

/-- The caller-visible side of a Sage (di)graph as `canonical_form` reads it:
vertex indices `0 .. n-1` (the `vert2int` enumeration of `G.vertices()`), the
list of `G.edges(labels=True)` in iteration order with their label values,
and the directedness flag.  Label values are modelled as `Nat` (they are
opaque orderable objects in the source). -/
structure SageGraph where
  n : Nat
  edges : List (Nat × Nat × Nat)
  directed : Bool

/-- The label-compression loop of `canonical_form`: returns `edge_labels`
(distinct label values in order of first appearance) and `labels` (for each
edge, the appearance index of its label). -/
def compressLabels (edges : List (Nat × Nat × Nat)) : List Nat × List Nat :=
  edges.foldl (fun acc e =>
    match acc.1.indexOf? e.2.2 with
    | some i => (acc.1, acc.2 ++ [i])
    | none => (acc.1 ++ [e.2.2], acc.2 ++ [acc.1.length])) ([], [])

/-- Stable insertion into an already sorted list, placing the new element
after existing equal elements. -/
def insertSorted {α : Type} (le : α → α → Bool) (a : α) : List α → List α
  | [] => [a]
  | b :: l => if le b a then b :: insertSorted le a l else a :: b :: l

/-- Python's stable `sorted(l)` under the comparison `le`, as a structurally
recursive insertion sort (extensionally the unique stable sort). -/
def sortBy {α : Type} (le : α → α → Bool) (l : List α) : List α :=
  l.foldl (fun acc x => insertSorted le x acc) []

/-- Table `lab_relabels = [lab for _,lab in sorted(edge_labels_rev.iteritems(),
key=itemgetter(0))]`: the appearance indices listed in increasing order of
their label values. -/
def labRelabels (edge_labels : List Nat) : List Nat :=
  (sortBy (fun a b => a.1 ≤ b.1) (edge_labels.enum.map fun p => (p.2, p.1))).map
    fun p => p.2

/-- Reattachment `new_edges = [(x,y,edge_labels[lab]) for x,y,lab in new_edges]`: replace
each compressed label index by the label value stored at that index of
`edge_labels`. -/
def reattachLabels (edge_labels : List Nat) (es : List OutEdge) : List OutEdge :=
  es.map fun e => (e.1, e.2.1, e.2.2.bind fun lab => edge_labels.get? lab)

/-- The body of `canonical_form(G, partition, ...)` up to (and including) the
call of `canonical_form_from_edge_list` and the reattachment of original
label values; the `return_graph` / `certificate` flags only choose how this
data is packaged (see `canonical_form_edges` / `canonical_form_graph`). -/
def canonical_form_core (aut : Nat → Nat) (G : SageGraph)
    (partition : Option (List (List Nat))) :
    Except String (BlissGraph × List OutEdge × List (Nat × Nat)) :=
  if ¬ (G.n ≤ LONG_MAX) then Except.error "AssertionError"
  else do
    let Vout := G.edges.map fun e => e.1
    let Vin := G.edges.map fun e => e.2.1
    let el := compressLabels G.edges
    let Lnr := el.1.length
    let labels := el.2.map fun i => (labRelabels el.1).getD i 0
    let r ← canonical_form_from_edge_list aut (G.n : Int) Vout Vin Lnr labels
      partition G.directed
    pure (r.1, reattachLabels el.1 r.2.1, r.2.2)

/-- Lexicographic order on output labels: Python 2 sorts `None` below any
integer. -/
def lblLE (a b : Option Nat) : Bool :=
  match a, b with
  | none, _ => true
  | some _, none => false
  | some x, some y => x ≤ y

/-- Python tuple comparison on `(endpoint-1, endpoint-2, label)`. -/
def edgeLE (a b : OutEdge) : Bool :=
  if a.1 ≠ b.1 then a.1 ≤ b.1
  else if a.2.1 ≠ b.2.1 then a.2.1 ≤ b.2.1
  else lblLE a.2.2 b.2.2

/-- Model of `sorted(new_edges)` of the default return path. -/
def sortEdges (es : List OutEdge) : List OutEdge := sortBy edgeLE es

/-- Call of `canonical_form` with `return_graph=False`, `certificate=False`:
`sorted(new_edges)`. -/
def canonical_form_edges (aut : Nat → Nat) (G : SageGraph)
    (partition : Option (List (List Nat))) : Except String (List OutEdge) :=
  (canonical_form_core aut G partition).map fun r => sortEdges r.2.1

/-- The Sage graph object assembled on the `return_graph=True` path: the graph
built from `new_edges` followed by `G.add_vertices(vert2int.values())`, whose
values are the internal indices `0 .. n-1`. -/
structure OutGraph where
  vertices : Finset Nat
  edges : List OutEdge
  deriving DecidableEq

/-- Call of `canonical_form` with `return_graph=True`: the reconstructed graph. -/
def canonical_form_graph (aut : Nat → Nat) (G : SageGraph)
    (partition : Option (List (List Nat))) : Except String OutGraph :=
  (canonical_form_core aut G partition).map fun r =>
    { vertices := (r.2.1.flatMap fun e => [e.1, e.2.1]).toFinset ∪ Finset.range G.n
      edges := r.2.1 }

/-- The multiset of canonical edges that a permutation `π` induces on a built
bliss graph, with each pair written larger-endpoint-first.  Modelled from the
spec: this is the "induced canonical edge set" of the engine contract
(section 4.2), the engine itself being external to the repository. -/
def canonEdgeMultiset (g : BlissGraph) (π : Nat → Nat) : Multiset (Nat × Nat) :=
  (g.edges.map fun e =>
    if π e.1 > π e.2 then (π e.1, π e.2) else (π e.2, π e.1) : List (Nat × Nat))

/-- The multiset of canonical colors `π` induces on a built bliss graph.
Modelled from the spec: part of the engine contract data (section 4.2). -/
def canonColorMultiset (g : BlissGraph) (π : Nat → Nat) :
    Multiset (Nat × Nat) :=
  (g.colors.map fun vc => (π vc.1, vc.2) : List (Nat × Nat))

instance {ε α : Type} [DecidableEq ε] [DecidableEq α] :
    DecidableEq (Except ε α) := fun a b =>
  match a, b with
  | Except.error x, Except.error y =>
    if h : x = y then Decidable.isTrue (by rw [h])
    else Decidable.isFalse fun c => h (Except.error.inj c)
  | Except.error _, Except.ok _ => Decidable.isFalse fun c => Except.noConfusion c
  | Except.ok _, Except.error _ => Decidable.isFalse fun c => Except.noConfusion c
  | Except.ok x, Except.ok y =>
    if h : x = y then Decidable.isTrue (by rw [h])
    else Decidable.isFalse fun c => h (Except.ok.inj c)

/-! ### The automorphism callback `add_gen` -/

/-- The inner `while aut[tmp] != marker` loop of `add_gen`: follows the
permutation chain from `tmp`, marking each visited vertex in `done` and
appending its external name `iv` to the cycle.  The C loop has no bound; the
`fuel` argument makes the recursion structural, with `none` standing for a
run that exceeds the fuel (which cannot happen for a permutation when the
fuel is at least `n`). -/
def emitCycle (aut iv : Nat → Nat) (marker : Nat) :
    Nat → Nat → (Nat → Bool) → List Nat → Option (List Nat × (Nat → Bool))
  | 0, _, _, _ => none
  | fuel + 1, tmp, done, cycle =>
    if aut tmp = marker then some (cycle, done)
    else
      let t := aut tmp
      emitCycle aut iv marker fuel t (fun w => if w = t then true else done w)
        (cycle ++ [iv t])

/-- The outer loop of `add_gen`: `cur` scans `0, 1, ..., n-1` (it only ever
increases), skipping vertices already marked `done`, and emits one cycle per
unvisited vertex. -/
def addGenLoop (n : Nat) (aut iv : Nat → Nat) :
    List Nat → (Nat → Bool) → List (List Nat) → Option (List (List Nat))
  | [], _, perm => some perm
  | cur :: rest, done, perm =>
    if done cur then addGenLoop n aut iv rest done perm
    else
      match emitCycle aut iv cur n cur
        (fun w => if w = cur then true else done w) [iv cur] with
      | none => none
      | some cd => addGenLoop n aut iv rest cd.2 (perm ++ [cd.1])

/-- Model of `add_gen(user_param, n, aut)`: converts the flat permutation `aut` on
`0 .. n-1` into the list of cycles appended to the generator list, writing
each vertex through the `int_to_vertex` map `iv`. -/
def add_gen (n : Nat) (aut iv : Nat → Nat) : Option (List (List Nat)) :=
  addGenLoop n aut iv (List.range n) (fun _ => false) []

/-! ### Helper lemmas -/

theorem cffel_assert_error (aut : Nat → Nat) (Vnr : Int) (Vout Vin : List Nat)
    (Lnr : Nat) (labels : List Nat) (p : Option (List (List Nat)))
    (directed : Bool) (h : ¬ ulongOfInt Vnr ≤ LONG_MAX) :
    canonical_form_from_edge_list aut Vnr Vout Vin Lnr labels p directed =
      Except.error "AssertionError" := by
  unfold canonical_form_from_edge_list
  rw [if_pos h]

theorem cffel_undirected (aut : Nat → Nat) (Vnr : Int) (Vout Vin : List Nat)
    (Lnr : Nat) (labels : List Nat) (p : Option (List (List Nat)))
    (h : ulongOfInt Vnr ≤ LONG_MAX) :
    canonical_form_from_edge_list aut Vnr Vout Vin Lnr labels p false =
      Except.ok (bliss_graph_from_labelled_edges Vnr.toNat Lnr Vout Vin labels p,
        cffelNewEdges aut Vout Vin Lnr labels false,
        cffelRelabel aut Vnr.toNat) := by
  unfold canonical_form_from_edge_list
  rw [if_neg (not_not_intro h)]
  rfl

theorem cffel_directed (aut : Nat → Nat) (Vnr : Int) (Vout Vin : List Nat)
    (Lnr : Nat) (labels : List Nat) (p : Option (List (List Nat)))
    (h : ulongOfInt Vnr ≤ LONG_MAX) :
    canonical_form_from_edge_list aut Vnr Vout Vin Lnr labels p true =
      (bliss_digraph_from_labelled_edges Vnr.toNat Lnr Vout Vin labels p).map
        (fun g => (g, cffelNewEdges aut Vout Vin Lnr labels true,
          cffelRelabel aut Vnr.toNat)) := by
  unfold canonical_form_from_edge_list
  rw [if_neg (not_not_intro h)]
  cases bliss_digraph_from_labelled_edges Vnr.toNat Lnr Vout Vin labels p <;> rfl

theorem cffel_ok_shape (aut : Nat → Nat) (Vnr : Int) (Vout Vin : List Nat)
    (Lnr : Nat) (labels : List Nat) (p : Option (List (List Nat)))
    (directed : Bool) (r : BlissGraph × List OutEdge × List (Nat × Nat))
    (h : canonical_form_from_edge_list aut Vnr Vout Vin Lnr labels p directed =
      Except.ok r) :
    r.2.1 = cffelNewEdges aut Vout Vin Lnr labels directed ∧
    r.2.2 = cffelRelabel aut Vnr.toNat := by
  by_cases hV : ulongOfInt Vnr ≤ LONG_MAX
  · cases directed with
    | false =>
      rw [cffel_undirected aut Vnr Vout Vin Lnr labels p hV] at h
      cases h
      exact ⟨rfl, rfl⟩
    | true =>
      rw [cffel_directed aut Vnr Vout Vin Lnr labels p hV] at h
      cases hg : bliss_digraph_from_labelled_edges Vnr.toNat Lnr Vout Vin labels p with
      | error s => rw [hg] at h; exact absurd h (by simp [Except.map])
      | ok g =>
        rw [hg] at h
        simp only [Except.map] at h
        cases h
        exact ⟨rfl, rfl⟩
  · rw [cffel_assert_error aut Vnr Vout Vin Lnr labels p directed hV] at h
    exact absurd h (by simp)

theorem core_ok_shape (aut : Nat → Nat) (G : SageGraph)
    (p : Option (List (List Nat))) (r : BlissGraph × List OutEdge × List (Nat × Nat))
    (h : canonical_form_core aut G p = Except.ok r) :
    r.2.1 = reattachLabels (compressLabels G.edges).1
      (cffelNewEdges aut (G.edges.map fun e => e.1) (G.edges.map fun e => e.2.1)
        (compressLabels G.edges).1.length
        ((compressLabels G.edges).2.map fun i =>
          (labRelabels (compressLabels G.edges).1).getD i 0)
        G.directed) := by
  simp only [canonical_form_core] at h
  split at h
  · exact absurd h (by simp)
  · cases hc : canonical_form_from_edge_list aut (G.n : Int)
        (G.edges.map fun e => e.1) (G.edges.map fun e => e.2.1)
        (compressLabels G.edges).1.length
        ((compressLabels G.edges).2.map fun i =>
          (labRelabels (compressLabels G.edges).1).getD i 0) p G.directed with
    | error s => rw [hc] at h; exact absurd h (by simp [Bind.bind, Except.bind])
    | ok r' =>
      rw [hc] at h
      simp only [Bind.bind, Except.bind, pure, Except.pure] at h
      cases h
      exact congrArg (reattachLabels (compressLabels G.edges).1)
        (cffel_ok_shape aut (G.n : Int) _ _ _ _ p G.directed r' hc).1

theorem mem_insertSorted {α : Type} (le : α → α → Bool) (a x : α) :
    ∀ l, x ∈ insertSorted le a l ↔ x = a ∨ x ∈ l := by
  intro l
  induction l with
  | nil => simp [insertSorted]
  | cons b l ih =>
    unfold insertSorted
    split
    · simp only [List.mem_cons, ih]
      tauto
    · simp only [List.mem_cons]

theorem pairwise_insertSorted {α : Type} (le : α → α → Bool)
    (htrans : ∀ a b c, le a b = true → le b c = true → le a c = true)
    (htot : ∀ a b, le a b || le b a) (a : α) :
    ∀ l, l.Pairwise (fun x y => le x y = true) →
      (insertSorted le a l).Pairwise (fun x y => le x y = true) := by
  intro l
  induction l with
  | nil => simp [insertSorted]
  | cons b l ih =>
    intro hp
    rw [List.pairwise_cons] at hp
    obtain ⟨hb, hl⟩ := hp
    unfold insertSorted
    split
    next hba =>
      rw [List.pairwise_cons]
      refine ⟨fun x hx => ?_, ih hl⟩
      rw [mem_insertSorted] at hx
      rcases hx with rfl | hx
      · exact hba
      · exact hb x hx
    next hba =>
      have hab : le a b = true := by
        have := htot a b
        rcases (Bool.or_eq_true _ _).mp this with h | h
        · exact h
        · exact absurd h hba
      rw [List.pairwise_cons]
      refine ⟨fun x hx => ?_, List.pairwise_cons.mpr ⟨hb, hl⟩⟩
      rcases List.mem_cons.mp hx with rfl | hx
      · exact hab
      · exact htrans a b x hab (hb x hx)

theorem pairwise_sortBy {α : Type} (le : α → α → Bool)
    (htrans : ∀ a b c, le a b = true → le b c = true → le a c = true)
    (htot : ∀ a b, le a b || le b a) (l : List α) :
    (sortBy le l).Pairwise (fun x y => le x y = true) := by
  have key : ∀ (l acc : List α), acc.Pairwise (fun x y => le x y = true) →
      (l.foldl (fun acc x => insertSorted le x acc) acc).Pairwise
        (fun x y => le x y = true) := by
    intro l
    induction l with
    | nil => intro acc h; exact h
    | cons a l ih =>
      intro acc h
      exact ih _ (pairwise_insertSorted le htrans htot a acc h)
  exact key l [] List.Pairwise.nil

theorem mem_sortBy {α : Type} (le : α → α → Bool) (x : α) (l : List α) :
    x ∈ sortBy le l ↔ x ∈ l := by
  have key : ∀ (l acc : List α),
      (x ∈ l.foldl (fun acc x => insertSorted le x acc) acc ↔ x ∈ acc ∨ x ∈ l) := by
    intro l
    induction l with
    | nil => intro acc; simp
    | cons a l ih =>
      intro acc
      rw [List.foldl_cons, ih, mem_insertSorted]
      simp only [List.mem_cons]
      tauto
  rw [sortBy, key l []]
  simp

theorem lblLE_trans (a b c : Option Nat) (h1 : lblLE a b = true)
    (h2 : lblLE b c = true) : lblLE a c = true := by
  cases a <;> cases b <;> cases c <;> simp_all [lblLE] <;> omega

theorem lblLE_total (a b : Option Nat) : lblLE a b || lblLE b a := by
  cases a <;> cases b <;> simp [lblLE] <;> omega

theorem edgeLE_trans (a b c : OutEdge) (h1 : edgeLE a b = true)
    (h2 : edgeLE b c = true) : edgeLE a c = true := by
  unfold edgeLE at *
  split_ifs at * <;> simp_all <;> first | omega | (exact lblLE_trans _ _ _ h1 h2)

theorem edgeLE_total (a b : OutEdge) : edgeLE a b || edgeLE b a := by
  unfold edgeLE
  split_ifs <;> simp_all <;>
    first
    | omega
    | (exact (Bool.or_eq_true _ _).mp (lblLE_total _ _))

/-! ### C2 -/

/-- C2 (code bug): the undirected and directed builders are claimed to encode
a labelled edge identically, via the `logLnr`-bit binary expansion of
`lab + 1`.  At `Vnr = 2`, `Lnr = 4` (`logLnr = 3`), single edge `(0, 1)` with
label `1` (`enc = 2 = 010₂`), the undirected builder adds the layer-1 edge
`(2, 3)` after the four chain edges, while the directed builder — which calls
`numpy.binary_repr` without the width argument — reads the unpadded
representation `10₂`, placing the bit at the wrong layer and then raising
`IndexError` at `binrep[2]`, so construction aborts. -/
theorem C2_digraph_encoding_diverges :
    (bliss_graph_from_labelled_edges 2 4 [0] [1] [1] none).edges =
      [(0, 2), (2, 4), (1, 3), (3, 5), (2, 3)] ∧
    bliss_digraph_from_labelled_edges 2 4 [0] [1] [1] none =
      Except.error "IndexError" := by
  exact ⟨by decide, rfl⟩

/-! ### C8 -/

/-- C8: when the `partition` argument is `None` or the empty list, both
labelled-edge builders behave exactly as if the partition were the single
class `[0, ..., Vnr-1]` of original (unexpanded) vertices. -/
theorem C8_default_partition (Vnr Lnr : Nat) (Vout Vin labels : List Nat)
    (p : Option (List (List Nat))) (h : p = none ∨ p = some []) :
    bliss_graph_from_labelled_edges Vnr Lnr Vout Vin labels p =
      bliss_graph_from_labelled_edges Vnr Lnr Vout Vin labels
        (some [List.range Vnr]) ∧
    bliss_digraph_from_labelled_edges Vnr Lnr Vout Vin labels p =
      bliss_digraph_from_labelled_edges Vnr Lnr Vout Vin labels
        (some [List.range Vnr]) := by
  rcases h with rfl | rfl <;> exact ⟨rfl, rfl⟩

/-- With `Lnr = 1` both builders never read the `labels` argument. -/
theorem builderG_one_label_irrelevant (Vnr : Nat) (Vout Vin l1 l2 : List Nat)
    (p : Option (List (List Nat))) :
    bliss_graph_from_labelled_edges Vnr 1 Vout Vin l1 p =
      bliss_graph_from_labelled_edges Vnr 1 Vout Vin l2 p := rfl

theorem digraphEdgesLoop_one_label_irrelevant (Vnr logLnr : Nat)
    (Vout Vin l1 l2 : List Nat) :
    ∀ is acc, digraphEdgesLoop Vnr logLnr 1 Vout Vin l1 is acc =
      digraphEdgesLoop Vnr logLnr 1 Vout Vin l2 is acc := by
  intro is
  induction is with
  | nil => intro acc; rfl
  | cons i is ih =>
    intro acc
    unfold digraphEdgesLoop
    simp only [reduceIte]
    cases hD : digraphLabelEdges Vnr logLnr (Vout.getD i 0) (Vin.getD i 0) 0 with
    | error s => rfl
    | ok es => exact ih (acc ++ es)

theorem builderD_one_label_irrelevant (Vnr : Nat) (Vout Vin l1 l2 : List Nat)
    (p : Option (List (List Nat))) :
    bliss_digraph_from_labelled_edges Vnr 1 Vout Vin l1 p =
      bliss_digraph_from_labelled_edges Vnr 1 Vout Vin l2 p := by
  simp only [bliss_digraph_from_labelled_edges]
  rw [digraphEdgesLoop_one_label_irrelevant Vnr (logLnrOf 1) Vout Vin l1 l2
    (List.range Vout.length) []]

/-! ### C6 -/

theorem logLnrOf_zero : logLnrOf 0 = 1 := rfl

/-- C10: with a single label class (`Lnr = 1`) every returned edge of
`canonical_form_from_edge_list` carries the same label — `labels[0]` when the
list is non-empty and `None` when it is empty (`labels.head?` covers both) —
and the entries of `labels` beyond index 0 are completely ignored: two label
lists with the same head produce identical results. -/
theorem C10_single_label (aut : Nat → Nat) (Vnr : Int)
    (Vout Vin labels labels2 : List Nat) (p : Option (List (List Nat)))
    (directed : Bool) :
    (∀ r, canonical_form_from_edge_list aut Vnr Vout Vin 1 labels p directed =
        Except.ok r → ∀ e ∈ r.2.1, e.2.2 = labels.head?) ∧
    (labels2.head? = labels.head? →
      canonical_form_from_edge_list aut Vnr Vout Vin 1 labels2 p directed =
        canonical_form_from_edge_list aut Vnr Vout Vin 1 labels p directed) := by
  constructor
  · intro r hr e he
    rw [(cffel_ok_shape aut Vnr Vout Vin 1 labels p directed r hr).1] at he
    unfold cffelNewEdges at he
    simp only [List.mem_map] at he
    obtain ⟨i, -, rfl⟩ := he
    split
    · rfl
    · split <;> rfl
  · intro hhead
    have hC : cffelNewEdges aut Vout Vin 1 labels2 directed =
        cffelNewEdges aut Vout Vin 1 labels directed := by
      unfold cffelNewEdges
      simp [hhead]
    by_cases hV : ulongOfInt Vnr ≤ LONG_MAX
    · cases directed with
      | false =>
        rw [cffel_undirected aut Vnr Vout Vin 1 labels p hV,
          cffel_undirected aut Vnr Vout Vin 1 labels2 p hV, hC,
          builderG_one_label_irrelevant Vnr.toNat Vout Vin labels2 labels p]
      | true =>
        rw [cffel_directed aut Vnr Vout Vin 1 labels p hV,
          cffel_directed aut Vnr Vout Vin 1 labels2 p hV, hC,
          builderD_one_label_irrelevant Vnr.toNat Vout Vin labels2 labels p]
    · rw [cffel_assert_error aut Vnr Vout Vin 1 labels p directed hV,
        cffel_assert_error aut Vnr Vout Vin 1 labels2 p directed hV]

/-- Witness for C10: one undirected edge `(0, 1)`, `Lnr = 1`, label lists
`[7]` and `[7, 9]`. -/
theorem C10_single_label_witness :
    (∀ e ∈ (bliss_graph_from_labelled_edges (2 : Int).toNat 1 [0] [1] [7] none,
        cffelNewEdges id [0] [1] 1 [7] false,
        cffelRelabel id (2 : Int).toNat).2.1, e.2.2 = ([7] : List Nat).head?) ∧
    canonical_form_from_edge_list id 2 [0] [1] 1 [7] none false =
      canonical_form_from_edge_list id 2 [0] [1] 1 [7, 9] none false := by
  constructor
  · exact (C10_single_label id 2 [0] [1] [7] [7] none false).1 _
      (cffel_undirected id 2 [0] [1] 1 [7] none (by decide))
  · exact (C10_single_label id 2 [0] [1] [7, 9] [7] none false).2 rfl

/-! ### C5 -/

/-- C5 counterexample: at `Vnr = 2^30` original vertices and `Lnr = 16`
labels, `logLnr = 5` bit layers make the expanded vertex count
`5 * 2^30 > UINT_MAX`, the capacity of the engine's `unsigned int` vertex
index type; yet the capacity check (which examines only the unexpanded
`Vnr` against `LONG_MAX`) passes and the bliss graph is constructed — no
capacity error is raised before (or at) construction. -/
theorem C5_counterexample :
    canonical_form_from_edge_list id ((2 : Int) ^ 30) [] [] 16 [] none false =
      Except.ok (bliss_graph_from_labelled_edges ((2 : Int) ^ 30).toNat 16 [] [] [] none,
        cffelNewEdges id [] [] 16 [] false,
        cffelRelabel id ((2 : Int) ^ 30).toNat) ∧
    (bliss_graph_from_labelled_edges ((2 : Int) ^ 30).toNat 16 [] [] [] none).nv =
      5 * 2 ^ 30 ∧
    UINT_MAX < 5 * 2 ^ 30 := by
  refine ⟨cffel_undirected id ((2 : Int) ^ 30) [] [] 16 [] none (by decide), ?_, by decide⟩
  have h5 : logLnrOf 16 = 5 := rfl
  have h30 : ((2 : Int) ^ 30).toNat = 2 ^ 30 := rfl
  show (if (16 : Nat) = 1 then ((2 : Int) ^ 30).toNat
    else ((2 : Int) ^ 30).toNat * logLnrOf 16) = 5 * 2 ^ 30
  rw [if_neg (by norm_num), h5, h30]
  norm_num

theorem ulongOfInt_natCast (n : Nat) (h : n < 2 ^ 64) : ulongOfInt (n : Int) = n := by
  unfold ulongOfInt
  rw [Int.emod_eq_of_lt (by positivity) (by exact_mod_cast h)]
  exact Int.toNat_natCast n

/-- C5 amended: the capacity check of both entry points compares only the
UNEXPANDED vertex count against `LONG_MAX` and runs before construction:
when it passes, construction always proceeds (no further capacity check on
the expanded `Vnr * logLnr` vertex count, which may exceed the engine's index
width, see `C5_counterexample`); when it fails, an `AssertionError` is raised
before any graph is built. -/
theorem C5_amended (aut : Nat → Nat) (Vnr : Int) (Vout Vin labels : List Nat)
    (p : Option (List (List Nat))) (Lnr : Nat) (G : SageGraph)
    (q : Option (List (List Nat))) :
    (ulongOfInt Vnr ≤ LONG_MAX →
      canonical_form_from_edge_list aut Vnr Vout Vin Lnr labels p false =
        Except.ok (bliss_graph_from_labelled_edges Vnr.toNat Lnr Vout Vin labels p,
          cffelNewEdges aut Vout Vin Lnr labels false,
          cffelRelabel aut Vnr.toNat)) ∧
    (¬ ulongOfInt Vnr ≤ LONG_MAX →
      canonical_form_from_edge_list aut Vnr Vout Vin Lnr labels p false =
        Except.error "AssertionError") ∧
    (¬ G.n ≤ LONG_MAX →
      canonical_form_core aut G q = Except.error "AssertionError") ∧
    (G.n ≤ LONG_MAX → G.directed = false →
      ∃ r, canonical_form_core aut G q = Except.ok r) := by
  refine ⟨fun h => cffel_undirected aut Vnr Vout Vin Lnr labels p h,
    fun h => cffel_assert_error aut Vnr Vout Vin Lnr labels p false h,
    fun h => by simp only [canonical_form_core]; rw [if_pos h],
    fun h hdir => ?_⟩
  have hu : ulongOfInt (G.n : Int) ≤ LONG_MAX := by
    rw [ulongOfInt_natCast G.n (by unfold LONG_MAX at h; omega)]
    exact h
  simp only [canonical_form_core]
  rw [if_neg (not_not_intro h), hdir]
  rw [cffel_undirected aut (G.n : Int) _ _ _ _ q hu]
  exact ⟨_, rfl⟩

/-- Witness for C5 amended, at `Vnr = 3`, no edges. -/
theorem C5_amended_witness :
    canonical_form_from_edge_list id 3 [] [] 1 [] none false =
      Except.ok (bliss_graph_from_labelled_edges (3 : Int).toNat 1 [] [] [] none,
        cffelNewEdges id [] [] 1 [] false, cffelRelabel id (3 : Int).toNat) ∧
    (∃ r, canonical_form_core id ⟨3, [], false⟩ none = Except.ok r) :=
  ⟨(C5_amended id 3 [] [] [] none 1 ⟨3, [], false⟩ none).1 (by decide),
   (C5_amended id 3 [] [] [] none 1 ⟨3, [], false⟩ none).2.2.2 (by decide) rfl⟩

/-- Successful run of `canonical_form_core` on an undirected graph within the
capacity bound, with all components spelled out. -/
theorem core_undirected (aut : Nat → Nat) (G : SageGraph)
    (q : Option (List (List Nat))) (h : G.n ≤ LONG_MAX)
    (hdir : G.directed = false) :
    canonical_form_core aut G q = Except.ok
      (bliss_graph_from_labelled_edges G.n (compressLabels G.edges).1.length
        (G.edges.map fun e => e.1) (G.edges.map fun e => e.2.1)
        ((compressLabels G.edges).2.map fun i =>
          (labRelabels (compressLabels G.edges).1).getD i 0) q,
       reattachLabels (compressLabels G.edges).1
         (cffelNewEdges aut (G.edges.map fun e => e.1)
           (G.edges.map fun e => e.2.1) (compressLabels G.edges).1.length
           ((compressLabels G.edges).2.map fun i =>
             (labRelabels (compressLabels G.edges).1).getD i 0) false),
       cffelRelabel aut G.n) := by
  have hu : ulongOfInt (G.n : Int) ≤ LONG_MAX := by
    rw [ulongOfInt_natCast G.n (by unfold LONG_MAX at h; omega)]
    exact h
  simp only [canonical_form_core]
  rw [if_neg (not_not_intro h), hdir,
    cffel_undirected aut (G.n : Int) _ _ _ _ q hu]
  rfl

/-- Label of the normalized output triple: both branches carry the same
label. -/
theorem outEdge_label_of_ite (c : Prop) [Decidable c] (e f e2 f2 : Nat)
    (l : Option Nat) :
    ((if c then (e, f, l) else (e2, f2, l)) : OutEdge).2.2 = l := by
  split <;> rfl

/-! ### C3 -/

/-- C3 (code bug): on the triangle with edges `(0,1)` labelled 5 and `(0,2)`,
`(1,2)` labelled 3, the labels that `canonical_form` reattaches to the three
output edges are `3, 5, 5` — the label values get permuted by the mismatched
composition of the appearance-order compression with the sorted `lab_relabels`
table, for every canonical permutation the engine could return.  The edge that
carried 5 comes back labelled 3, and the multiset of output labels
`{3, 5, 5}` differs from the input multiset `{5, 3, 3}`. -/
theorem C3_label_reattachment_bug (aut : Nat → Nat) :
    (canonical_form_core aut ⟨3, [(0, 1, 5), (0, 2, 3), (1, 2, 3)], false⟩ none).map
        (fun r => r.2.1.map fun e => e.2.2) =
      Except.ok [some 3, some 5, some 5] := by
  rw [core_undirected aut ⟨3, [(0, 1, 5), (0, 2, 3), (1, 2, 3)], false⟩ none
    (by decide) rfl]
  simp only [Except.map, reattachLabels, cffelNewEdges, List.map_map]
  have hr : List.range (List.map (fun e => e.1)
      ([(0, 1, 5), (0, 2, 3), (1, 2, 3)] : List (Nat × Nat × Nat))).length =
      [0, 1, 2] := rfl
  rw [hr]
  simp only [List.map_cons, List.map_nil, Function.comp]
  norm_num [outEdge_label_of_ite]
  decide

/-! ### C1 -/

theorem iterate_lt_of_range (aut : Nat → Nat) (n : Nat)
    (hrange : ∀ i, i < n → aut i < n) (m : Nat) (hm : m < n) :
    ∀ t, aut^[t] m < n := by
  intro t
  induction t with
  | zero => simpa using hm
  | succ t ih =>
    rw [Function.iterate_succ_apply']
    exact hrange _ ih

/-- A permutation of `[0, n)` returns to its starting point within `n`
steps: there is `t < n` with `aut(aut^[t] m) = m`. -/
theorem orbit_return (aut : Nat → Nat) (n : Nat)
    (hinj : Function.Injective aut) (hrange : ∀ i, i < n → aut i < n)
    (m : Nat) (hm : m < n) : ∃ t, t < n ∧ aut (aut^[t] m) = m := by
  have hiter := iterate_lt_of_range aut n hrange m hm
  have key : ∀ i j : Nat, i < j → j ≤ n → aut^[i] m = aut^[j] m →
      ∃ t, t < n ∧ aut (aut^[t] m) = m := by
    intro i j hij hjn heq
    have hadd : i + (j - i) = j := by omega
    have heq2 : aut^[i] (aut^[j - i] m) = aut^[i] m := by
      rw [← Function.iterate_add_apply, hadd, heq]
    have hkm : aut^[j - i] m = m := hinj.iterate i heq2
    refine ⟨j - i - 1, by omega, ?_⟩
    have hsucc : j - i - 1 + 1 = j - i := by omega
    have hit := Function.iterate_succ_apply' aut (j - i - 1) m
    rw [Nat.succ_eq_add_one, hsucc] at hit
    rw [← hit]
    exact hkm
  have hcard : Fintype.card (Fin n) < Fintype.card (Fin (n + 1)) := by simp
  obtain ⟨i, j, hne, heq⟩ := Fintype.exists_ne_map_eq_of_card_lt
    (fun i : Fin (n + 1) => (⟨aut^[i.1] m, hiter i.1⟩ : Fin n)) hcard
  have heq' : aut^[i.1] m = aut^[j.1] m := by
    have := congrArg Fin.val heq
    simpa using this
  rcases Nat.lt_or_ge i.1 j.1 with hij | hij
  · exact key i.1 j.1 hij (by omega) heq'
  · have hji : j.1 < i.1 := by
      rcases Nat.lt_or_ge j.1 i.1 with h | h
      · exact h
      · exact absurd (Fin.val_injective (by omega)) hne
    exact key j.1 i.1 hji (by omega) heq'.symm

theorem emitCycle_isSome (aut iv : Nat → Nat) (marker : Nat) :
    ∀ (fuel tmp : Nat) (done : Nat → Bool) (cycle : List Nat),
      (∃ t, t < fuel ∧ aut (aut^[t] tmp) = marker) →
      (emitCycle aut iv marker fuel tmp done cycle).isSome = true := by
  intro fuel
  induction fuel with
  | zero =>
    rintro tmp done cycle ⟨t, ht, -⟩
    omega
  | succ f ih =>
    rintro tmp done cycle ⟨t, ht, hmark⟩
    rw [emitCycle]
    split
    · rfl
    next hne =>
      apply ih
      cases t with
      | zero => exact absurd (by simpa using hmark) hne
      | succ s =>
        refine ⟨s, by omega, ?_⟩
        rw [← Function.iterate_succ_apply]
        exact hmark

theorem emitCycle_done_subset (aut iv : Nat → Nat) (marker : Nat) :
    ∀ (fuel tmp : Nat) (done : Nat → Bool) (cycle c : List Nat)
      (d : Nat → Bool),
      emitCycle aut iv marker fuel tmp done cycle = some (c, d) →
      ∀ w, d w = true → done w = true ∨ ∃ t, 1 ≤ t ∧ w = aut^[t] tmp := by
  intro fuel
  induction fuel with
  | zero =>
    intro tmp done cycle c d h
    exact absurd h (by rw [emitCycle]; simp)
  | succ f ih =>
    intro tmp done cycle c d h
    rw [emitCycle] at h
    split at h
    · cases h
      intro w hw
      exact Or.inl hw
    next hne =>
      intro w hw
      rcases ih _ _ _ _ _ h w hw with hdone | ⟨t, ht1, rfl⟩
      · by_cases hw2 : w = aut tmp
        · exact Or.inr ⟨1, le_rfl, by simpa using hw2⟩
        · left
          simpa [hw2] using hdone
      · exact Or.inr ⟨t + 1, by omega, (Function.iterate_succ_apply aut t tmp).symm⟩

theorem emitCycle_fixed (aut iv : Nat → Nat) (marker : Nat) (fuel : Nat)
    (done : Nat → Bool) (cycle : List Nat) (hfix : aut marker = marker)
    (hf : 0 < fuel) :
    emitCycle aut iv marker fuel marker done cycle = some (cycle, done) := by
  cases fuel with
  | zero => omega
  | succ f =>
    rw [emitCycle]
    rw [if_pos hfix]

theorem emitCycle_extends (aut iv : Nat → Nat) (marker : Nat) :
    ∀ (fuel tmp : Nat) (done : Nat → Bool) (cycle c : List Nat)
      (d : Nat → Bool),
      emitCycle aut iv marker fuel tmp done cycle = some (c, d) →
      ∃ s, c = cycle ++ s := by
  intro fuel
  induction fuel with
  | zero =>
    intro tmp done cycle c d h
    exact absurd h (by rw [emitCycle]; simp)
  | succ f ih =>
    intro tmp done cycle c d h
    rw [emitCycle] at h
    split at h
    · cases h
      exact ⟨[], by simp⟩
    · obtain ⟨s, hs⟩ := ih _ _ _ _ _ h
      refine ⟨iv (aut tmp) :: s, ?_⟩
      rw [hs, List.append_assoc]
      rfl

theorem addGenLoop_mono (n : Nat) (aut iv : Nat → Nat) :
    ∀ (rest : List Nat) (done : Nat → Bool) (perm out : List (List Nat)),
      addGenLoop n aut iv rest done perm = some out →
      ∀ c ∈ perm, c ∈ out := by
  intro rest
  induction rest with
  | nil =>
    intro done perm out h c hc
    cases h
    exact hc
  | cons cur rest ih =>
    intro done perm out h c hc
    rw [addGenLoop] at h
    split at h
    · exact ih _ _ _ h c hc
    · split at h
      · exact absurd h (by simp)
      · exact ih _ _ _ h c (List.mem_append_left _ hc)

theorem addGenLoop_nonempty (n : Nat) (aut iv : Nat → Nat) :
    ∀ (rest : List Nat) (done : Nat → Bool) (perm out : List (List Nat)),
      (∀ c ∈ perm, c ≠ []) →
      addGenLoop n aut iv rest done perm = some out →
      ∀ c ∈ out, c ≠ [] := by
  intro rest
  induction rest with
  | nil =>
    intro done perm out hp h
    cases h
    exact hp
  | cons cur rest ih =>
    intro done perm out hp h
    rw [addGenLoop] at h
    split at h
    · exact ih _ _ _ hp h
    · split at h
      · exact absurd h (by simp)
      next cd heq =>
        refine ih _ _ _ ?_ h
        intro c hc
        rcases List.mem_append.mp hc with hc | hc
        · exact hp c hc
        · obtain ⟨s, hs⟩ := emitCycle_extends aut iv cur n cur _ _ cd.1 cd.2
            (by rw [heq])
          rw [List.mem_singleton.mp hc, hs]
          simp

theorem addGenLoop_total (n : Nat) (aut iv : Nat → Nat)
    (hinj : Function.Injective aut) (hrange : ∀ i, i < n → aut i < n) :
    ∀ (rest : List Nat), (∀ u ∈ rest, u < n) →
      ∀ (done : Nat → Bool) (perm : List (List Nat)),
      ∃ out, addGenLoop n aut iv rest done perm = some out := by
  intro rest
  induction rest with
  | nil =>
    intro _ done perm
    exact ⟨perm, rfl⟩
  | cons cur rest ih =>
    intro hu done perm
    rw [addGenLoop]
    by_cases hd : done cur
    · rw [if_pos hd]
      exact ih (fun u h => hu u (List.mem_cons_of_mem _ h)) done perm
    · rw [if_neg hd]
      have hcur : cur < n := hu cur (List.mem_cons_self _ _)
      obtain ⟨t, htn, hret⟩ := orbit_return aut n hinj hrange cur hcur
      have hsome := emitCycle_isSome aut iv cur n cur
        (fun w => if w = cur then true else done w) [iv cur] ⟨t, htn, hret⟩
      cases hE : emitCycle aut iv cur n cur
          (fun w => if w = cur then true else done w) [iv cur] with
      | none => rw [hE] at hsome; exact absurd hsome (by simp)
      | some cd =>
        exact ih (fun u h => hu u (List.mem_cons_of_mem _ h)) cd.2 (perm ++ [cd.1])

theorem addGenLoop_reaches_fixed (n : Nat) (aut iv : Nat → Nat)
    (hinj : Function.Injective aut) (hrange : ∀ i, i < n → aut i < n)
    (v : Nat) (hfix : aut v = v) (hvn : v < n) :
    ∀ (rest : List Nat), (∀ u ∈ rest, u < n) → v ∈ rest →
      ∀ (done : Nat → Bool), done v = false → ∀ (perm : List (List Nat)),
      ∃ out, addGenLoop n aut iv rest done perm = some out ∧ [iv v] ∈ out := by
  intro rest
  induction rest with
  | nil =>
    intro _ hv
    exact absurd hv (List.not_mem_nil v)
  | cons cur rest ih =>
    intro hu hv done hdv perm
    rw [addGenLoop]
    by_cases hd : done cur
    · rw [if_pos hd]
      have hvrest : v ∈ rest := by
        rcases List.mem_cons.mp hv with rfl | h
        · rw [hdv] at hd
          exact absurd hd (by simp)
        · exact h
      exact ih (fun u h => hu u (List.mem_cons_of_mem _ h)) hvrest done hdv perm
    · rw [if_neg hd]
      by_cases hcv : cur = v
      · subst hcv
        rw [emitCycle_fixed aut iv cur n
          (fun w => if w = cur then true else done w) [iv cur] hfix (by omega)]
        obtain ⟨out, hout⟩ := addGenLoop_total n aut iv hinj hrange rest
          (fun u h => hu u (List.mem_cons_of_mem _ h))
          (fun w => if w = cur then true else done w) (perm ++ [[iv cur]])
        exact ⟨out, hout, addGenLoop_mono n aut iv rest _ _ out hout [iv cur]
          (List.mem_append_right _ (List.mem_singleton_self _))⟩
      · have hvrest : v ∈ rest := by
          rcases List.mem_cons.mp hv with rfl | h
          · exact absurd rfl hcv
          · exact h
        have hcur : cur < n := hu cur (List.mem_cons_self _ _)
        obtain ⟨t, htn, hret⟩ := orbit_return aut n hinj hrange cur hcur
        have hsome := emitCycle_isSome aut iv cur n cur
          (fun w => if w = cur then true else done w) [iv cur] ⟨t, htn, hret⟩
        cases hE : emitCycle aut iv cur n cur
            (fun w => if w = cur then true else done w) [iv cur] with
        | none => rw [hE] at hsome; exact absurd hsome (by simp)
        | some cd =>
          have hdv2 : cd.2 v = false := by
            rcases hd2 : cd.2 v with - | -
            · rfl
            · rcases emitCycle_done_subset aut iv cur n cur _ _ cd.1 cd.2
                  (by rw [hE]) v hd2 with hdone1 | ⟨s, hs1, hsv⟩
              · have : (if v = cur then true else done v) = true := hdone1
                rw [if_neg (fun hvc => hcv hvc.symm), hdv] at this
                exact absurd this (by simp)
              · have hvv : aut^[s] v = v := Function.iterate_fixed hfix s
                have : aut^[s] cur = aut^[s] v := by rw [hvv, ← hsv]
                exact absurd (hinj.iterate s this) hcv
          exact ih (fun u h => hu u (List.mem_cons_of_mem _ h)) hvrest cd.2
            hdv2 (perm ++ [cd.1])

/-- C1 counterexample: for the automorphism `(0 1)` of a 3-vertex graph,
`add_gen` emits the singleton cycle `(2)` for the fixed vertex 2 — the output
is `[[0,1],[2]]`, which contains a cycle of length `1 < 2` holding the fixed
point, contradicting "every emitted cycle has length ≥ 2 and a vertex with
`aut[v] = v` appears in no cycle". -/
theorem C1_counterexample :
    add_gen 3 (fun v => if v = 0 then 1 else if v = 1 then 0 else v) id =
      some [[0, 1], [2]] ∧
    (fun v => if v = 0 then 1 else if v = 1 then 0 else v) 2 = 2 ∧
    [2] ∈ [[0, 1], [2]] ∧ ([2] : List Nat).length < 2 ∧
    (2 : Nat) ∈ ([2] : List Nat) := by
  exact ⟨by decide, by decide, by decide, by decide, by decide⟩

/-- C1 amended: the disjoint-cycle representation emitted by `add_gen`
INCLUDES fixed points as singleton cycles: for every permutation `aut` of
`[0, n)`, the callback terminates and returns a cycle list in which every
cycle is non-empty and every fixed vertex `v` appears as the singleton cycle
`(iv v)`. -/
theorem C1_amended (n : Nat) (aut iv : Nat → Nat) (v : Nat)
    (hinj : Function.Injective aut) (hrange : ∀ i, i < n → aut i < n)
    (hv : v < n) (hfix : aut v = v) :
    ∃ perm, add_gen n aut iv = some perm ∧ [iv v] ∈ perm ∧
      ∀ c ∈ perm, c ≠ [] := by
  obtain ⟨out, hout, hmem⟩ := addGenLoop_reaches_fixed n aut iv hinj hrange v
    hfix hv (List.range n) (fun u hu => List.mem_range.mp hu)
    (List.mem_range.mpr hv) (fun _ => false) rfl []
  exact ⟨out, hout, hmem,
    addGenLoop_nonempty n aut iv (List.range n) _ [] out (by simp) hout⟩

/-- Witness for C1 amended: the identity permutation on one vertex. -/
theorem C1_amended_witness :
    ∃ perm, add_gen 1 id id = some perm ∧ [id 0] ∈ perm ∧
      ∀ c ∈ perm, c ≠ [] :=
  C1_amended 1 id id 0 Function.injective_id (fun i h => h) (by decide) rfl

/-! ### C4 -/

/-- A labelled triangle: edges `(0,1)` labelled 20, `(0,2)` labelled 30,
`(1,2)` labelled 10, in Sage's sorted edge-iteration order. -/
def G4a : SageGraph := ⟨3, [(0, 1, 20), (0, 2, 30), (1, 2, 10)], false⟩

/-- The color-preserving relabeling of `G4a` by the transposition of vertices
0 and 2 (same triangle, edge `(0,1)` now labelled 10, `(1,2)` labelled 20),
again in sorted iteration order. -/
def G4b : SageGraph := ⟨3, [(0, 1, 10), (0, 2, 30), (1, 2, 20)], false⟩

/-- A canonical permutation for `G4b`'s compressed graph that matches the
identity on `G4a`'s compressed graph: the compressed graphs are isomorphic
via swapping base vertices 1, 2 together with their layer-1 copies 4, 5. -/
def phi4 : Nat → Nat := fun v => [0, 2, 1, 3, 5, 4].getD v v

/-- C4 (code bug): `G4b` is a color-preserving relabeling of the labelled
triangle `G4a`, and the engine contract (identical induced canonical edge and
color multisets on the compressed graphs — spec section 4.2) is satisfied by
the canonical permutations `id` for `G4a` and `phi4` for `G4b`; yet the two
sorted canonical edge lists differ: the mismatched label compression attaches
label 10 to the canonical edge `(1,0)` of `G4a` but label 20 to the same
canonical edge of `G4b`.  Isomorphism invariance of `canonical_form` fails on
labelled graphs, contradicting its own docstring. -/
theorem C4_isomorphism_invariance_bug :
    ((canonical_form_core id G4a none).map fun r => canonEdgeMultiset r.1 id) =
      ((canonical_form_core phi4 G4b none).map fun r =>
        canonEdgeMultiset r.1 phi4) ∧
    ((canonical_form_core id G4a none).map fun r => canonColorMultiset r.1 id) =
      ((canonical_form_core phi4 G4b none).map fun r =>
        canonColorMultiset r.1 phi4) ∧
    ((canonical_form_core id G4a none).map fun r => r.1.nv) =
      ((canonical_form_core phi4 G4b none).map fun r => r.1.nv) ∧
    canonical_form_edges id G4a none =
      Except.ok [(1, 0, some 10), (2, 0, some 20), (2, 1, some 30)] ∧
    canonical_form_edges phi4 G4b none =
      Except.ok [(1, 0, some 20), (2, 0, some 10), (2, 1, some 30)] ∧
    ([(1, 0, some 10), (2, 0, some 20), (2, 1, some 30)] : List OutEdge) ≠
      [(1, 0, some 20), (2, 0, some 10), (2, 1, some 30)] := by
  exact ⟨by decide, by decide, by decide, by decide, by decide, by decide⟩

/-! ### C7 -/

/-- C7: the default return of `canonical_form` (`return_graph=False`) is the
edge list sorted lexicographically on `(endpoint-1, endpoint-2, label)`
(Python tuple order, `edgeLE`), and for an undirected input every edge pair
is emitted in the fixed canonical order with the larger canonical index
first. -/
theorem C7_sorted_output (aut : Nat → Nat) (G : SageGraph)
    (p : Option (List (List Nat))) (es : List OutEdge)
    (h : canonical_form_edges aut G p = Except.ok es) :
    es.Pairwise (fun a b => edgeLE a b = true) ∧
    (G.directed = false → ∀ e ∈ es, e.2.1 ≤ e.1) := by
  unfold canonical_form_edges at h
  cases hc : canonical_form_core aut G p with
  | error s => rw [hc] at h; exact absurd h (by simp [Except.map])
  | ok r =>
    rw [hc] at h
    simp only [Except.map, Except.ok.injEq] at h
    subst h
    constructor
    · exact pairwise_sortBy edgeLE edgeLE_trans edgeLE_total r.2.1
    · intro hdir e he
      rw [sortEdges, mem_sortBy] at he
      rw [core_ok_shape aut G p r hc] at he
      unfold reattachLabels at he
      simp only [List.mem_map] at he
      obtain ⟨x, hx, rfl⟩ := he
      rw [hdir] at hx
      unfold cffelNewEdges at hx
      simp only [List.mem_map] at hx
      obtain ⟨i, -, rfl⟩ := hx
      simp only [Bool.false_eq_true, if_false]
      split
      next hgt => dsimp only; omega
      next hgt => dsimp only; omega

/-- Witness for C7: the path `0 — 1` with label `7`, canonical permutation
the identity. -/
theorem C7_sorted_output_witness :
    List.Pairwise (fun a b => edgeLE a b = true) [((1 : Nat), (0 : Nat), some 7)] ∧
    ((⟨2, [(0, 1, 7)], false⟩ : SageGraph).directed = false →
      ∀ e ∈ [((1 : Nat), (0 : Nat), some 7)], e.2.1 ≤ e.1) :=
  C7_sorted_output id ⟨2, [(0, 1, 7)], false⟩ none [(1, 0, some 7)] rfl

/-! ### C9 -/

/-- C9: `canonical_form` with `return_graph=True` returns a graph whose
vertex set contains a vertex for every original vertex (the canonical indices
`0 .. n-1` added by `add_vertices`), isolated vertices included; and the
edgeless graph on 15 vertices yields exactly the graph with vertex set
`{0, ..., 14}` and no edges, for every canonical permutation the engine may
return. -/
theorem C9_isolated_vertices :
    (∀ (aut : Nat → Nat) (G : SageGraph) (p : Option (List (List Nat)))
        (g : OutGraph), canonical_form_graph aut G p = Except.ok g →
          Finset.range G.n ⊆ g.vertices) ∧
    (∀ aut : Nat → Nat,
      canonical_form_graph aut ⟨15, [], false⟩ none =
        Except.ok ⟨Finset.range 15, []⟩) := by
  constructor
  · intro aut G p g h
    unfold canonical_form_graph at h
    cases hc : canonical_form_core aut G p with
    | error s => rw [hc] at h; exact absurd h (by simp [Except.map])
    | ok r =>
      rw [hc] at h
      simp only [Except.map, Except.ok.injEq] at h
      subst h
      exact Finset.subset_union_right
  · intro aut
    rfl

/-- Witness for C9, instantiating the general clause at the concrete
edgeless 15-vertex scenario produced by the second clause. -/
theorem C9_isolated_vertices_witness :
    Finset.range (15 : Nat) ⊆ (⟨Finset.range 15, []⟩ : OutGraph).vertices :=
  C9_isolated_vertices.1 id ⟨15, [], false⟩ none ⟨Finset.range 15, []⟩
    (C9_isolated_vertices.2 id)

/-- Witness for C8 at `Vnr = 2`, `Lnr = 1`, one edge, absent partition. -/
theorem C8_default_partition_witness :
    bliss_graph_from_labelled_edges 2 1 [0] [1] [0] none =
      bliss_graph_from_labelled_edges 2 1 [0] [1] [0] (some [List.range 2]) ∧
    bliss_digraph_from_labelled_edges 2 1 [0] [1] [0] none =
      bliss_digraph_from_labelled_edges 2 1 [0] [1] [0] (some [List.range 2]) :=
  C8_default_partition 2 1 [0] [1] [0] none (Or.inl rfl)

end BlissPyx
